import Mathlib

/-!
Verification of the Gauss-Legendre quadrature module `src/cuadrature.py`.

The Python source is embedded shallowly over the real numbers: numpy arrays
become lists of reals, elementwise arithmetic becomes `List.map` / `List.zipWith`,
and the `while` loop of `main` becomes a recursion on the remaining order budget.
The only routine whose algorithm is not in the repository is
`np.polynomial.legendre.leggauss`; it is modelled from the specification
(roots of the degree-N Legendre polynomial with the classical weight formula).
-/

namespace Cuadrature

open Polynomial

/-- Legendre polynomials over ℝ via the three-term recurrence of the spec:
P_0 = 1, P_1 = X, and (k+1)·P_{k+1} = (2k+1)·X·P_k − k·P_{k−1}
(instantiated at k = n+1: (n+2)·P_{n+2} = (2n+3)·X·P_{n+1} − (n+1)·P_n). -/
noncomputable def legendre : ℕ → Polynomial ℝ
  | 0 => 1
  | 1 => X
  | n + 2 =>
      C (((n : ℝ) + 2)⁻¹) *
        (C (2 * (n : ℝ) + 3) * X * legendre (n + 1) - C ((n : ℝ) + 1) * legendre n)

/-- Modelled from the spec: `gaussxw` (src/cuadrature.py line 43) delegates to the
external library routine `np.polynomial.legendre.leggauss`, whose algorithm is not
part of this repository.  Per the spec, the N nodes are the roots of the degree-N
Legendre polynomial returned in increasing order, and the weight at a root x is
w = 2 / ((1 − x²) · P′_N(x)²). -/
noncomputable def gaussxw (N : ℕ) : List ℝ × List ℝ :=
  ((legendre N).roots.toFinset.sort (· ≤ ·),
   ((legendre N).roots.toFinset.sort (· ≤ ·)).map
     (fun x => 2 / ((1 - x ^ 2) * ((derivative (legendre N)).eval x) ^ 2)))

/-- Embeds `gaussxwab` (src/cuadrature.py lines 47-76): rescales nodes and weights
from [-1, 1] to [liminf, limsup] by the affine transform of line 75-76. -/
noncomputable def gaussxwab (liminf limsup : ℝ) (pto peso : List ℝ) :
    List ℝ × List ℝ :=
  (pto.map (fun x => 0.5 * (limsup - liminf) * x + 0.5 * (limsup + liminf)),
   peso.map (fun w => 0.5 * (limsup - liminf) * w))

/-- Embeds `func_arg_int` (src/cuadrature.py line 101): f(x) = x⁶ − x²·sin(2x). -/
noncomputable def func_arg_int (x : ℝ) : ℝ := x ^ 6 - x ^ 2 * Real.sin (2 * x)

/-- Embeds `eva_int` (src/cuadrature.py line 127): `np.sum(peso * func(pto))`,
the elementwise product of the weights with the function values, summed. -/
noncomputable def eva_int (pto peso : List ℝ) (func : ℝ → ℝ) : ℝ :=
  (List.zipWith (fun w x => w * func x) peso pto).sum

/-- Embeds `derivada_analitica` (src/cuadrature.py lines 154-155):
F(x) = x⁷/7 + (x²/2)·cos(2x) − (x/2)·sin(2x) − (1/4)·cos(2x). -/
noncomputable def derivada_analitica (x : ℝ) : ℝ :=
  x ^ 7 / 7 + x ^ 2 / 2 * Real.cos (2 * x) - x / 2 * Real.sin (2 * x)
    - 1 / 4 * Real.cos (2 * x)

/-- Embeds line 175 of `main`: the reference value F(3) − F(1). -/
noncomputable def analytic : ℝ := derivada_analitica 3 - derivada_analitica 1

/-- Embeds line 193 of `main`: `err = abs(approx - analytic) / analytic`.
Note the denominator is the signed reference value, not its absolute value,
and there is no special case for a zero reference. -/
noncomputable def recordedError (approx reference : ℝ) : ℝ :=
  |approx - reference| / reference

/-- Embeds the body of one iteration of the `while` loop of `main`
(src/cuadrature.py lines 186-193): generate the rule of order N, map it onto
[1, 3], evaluate the integral, and compute the recorded error. -/
noncomputable def mainStep (N : ℕ) : ℝ × ℝ :=
  let pw := gaussxw N
  let pe := gaussxwab 1 3 pw.1 pw.2
  let approx := eva_int pe.1 pe.2 func_arg_int
  (approx, recordedError approx analytic)

/-- Embeds the `while True` loop of `main` (src/cuadrature.py lines 185-208),
parametrised by the per-order computation `step N = (approx, err)`: one record
(N, approx, err) is appended per trial; the loop breaks with success when
`err < tol`, otherwise N is incremented and the loop breaks with failure when
`N > maxOrder` (the guard `if N > 50` of line 207). -/
noncomputable def searchLoop (step : ℕ → ℝ × ℝ) (tol : ℝ) (maxOrder N : ℕ)
    (acc : List (ℕ × ℝ × ℝ)) : List (ℕ × ℝ × ℝ) × ℕ × Bool :=
  if (step N).2 < tol then (acc ++ [(N, (step N).1, (step N).2)], N, true)
  else if maxOrder < N + 1 then (acc ++ [(N, (step N).1, (step N).2)], N + 1, false)
  else searchLoop step tol maxOrder (N + 1) (acc ++ [(N, (step N).1, (step N).2)])
termination_by maxOrder + 1 - N
decreasing_by omega

/-- Embeds the tolerance of line 179. -/
noncomputable def tol : ℝ := 1e-10

/-- Embeds the whole search of `main`: the loop started at N = 1 with empty
record lists and order cap 50. -/
noncomputable def mainSearch : List (ℕ × ℝ × ℝ) × ℕ × Bool :=
  searchLoop mainStep tol 50 1 []

/-- Helper: summing a list scaled by a constant factors the constant out. -/
lemma sum_map_mul (c : ℝ) (l : List ℝ) :
    (l.map (fun x => c * x)).sum = c * l.sum := by
  induction l with
  | nil => simp
  | cons x xs ih => simp [ih, mul_add]

/-- C3: the interval mapper returns exactly the affinely transformed nodes
0.5·(b−a)·x_i + 0.5·(b+a) and weights 0.5·(b−a)·w_i, index-aligned with the
inputs and of the same lengths. -/
theorem gaussxwab_pointwise (a b : ℝ) (pto peso : List ℝ) :
    (gaussxwab a b pto peso).1.length = pto.length ∧
    (gaussxwab a b pto peso).2.length = peso.length ∧
    (∀ i : ℕ, (gaussxwab a b pto peso).1[i]? =
      pto[i]?.map (fun x => 0.5 * (b - a) * x + 0.5 * (b + a))) ∧
    (∀ i : ℕ, (gaussxwab a b pto peso).2[i]? =
      peso[i]?.map (fun w => 0.5 * (b - a) * w)) := by
  refine ⟨by simp [gaussxwab], by simp [gaussxwab], fun i => ?_, fun i => ?_⟩ <;>
    simp [gaussxwab]

/-- C4: the quadrature evaluator returns the weighted sum Σ_i w_i · f(x_i)
over the index-aligned rule; the integrand is applied to each node separately
(pointwise, with no state threaded between nodes). -/
theorem eva_int_weighted_sum (pto peso : List ℝ) (func : ℝ → ℝ)
    (h : peso.length = pto.length) :
    eva_int pto peso func =
      ∑ i ∈ Finset.range pto.length, peso.getD i 0 * func (pto.getD i 0) := by
  induction pto generalizing peso with
  | nil =>
    have : peso = [] := List.length_eq_zero.mp h
    subst this
    simp [eva_int]
  | cons x xs ih =>
    cases peso with
    | nil => simp at h
    | cons w ws =>
      have hlen : ws.length = xs.length := by simpa using h
      have hrec := ih ws hlen
      simp only [eva_int, List.zipWith_cons_cons, List.sum_cons] at hrec ⊢
      rw [hrec, List.length_cons, Finset.sum_range_succ']
      simp [add_comm]

/-- Witness for C4 at the concrete rule ([1, 2], [3, 4]) and the identity map. -/
theorem eva_int_weighted_sum_witness :
    eva_int [(1 : ℝ), 2] [3, 4] id =
      ∑ i ∈ Finset.range [(1 : ℝ), 2].length,
        [(3 : ℝ), 4].getD i 0 * id ([(1 : ℝ), 2].getD i 0) :=
  eva_int_weighted_sum [(1 : ℝ), 2] [3, 4] id (by simp)

/-- C10: affine substitution homomorphism — evaluating the mapped rule equals
the scaled evaluation of the original rule on the affinely composed integrand. -/
theorem eva_int_gaussxwab_affine (a b : ℝ) (pto peso : List ℝ) (f : ℝ → ℝ) :
    eva_int (gaussxwab a b pto peso).1 (gaussxwab a b pto peso).2 f =
      0.5 * (b - a) *
        eva_int pto peso (fun t => f (0.5 * (b - a) * t + 0.5 * (b + a))) := by
  induction pto generalizing peso with
  | nil => simp [eva_int, gaussxwab]
  | cons x xs ih =>
    cases peso with
    | nil => simp [eva_int, gaussxwab]
    | cons w ws =>
      have hrec := ih ws
      simp only [gaussxwab, List.map_cons, eva_int, List.zipWith_cons_cons,
        List.sum_cons] at hrec ⊢
      rw [hrec]
      ring

/-- C6: mapping a reference rule whose weights sum to 2 and whose nodes lie in
[−1, 1] onto an interval a < b yields weights summing to b − a (exactly, in the
real-number model) and nodes lying within [a, b]. -/
theorem gaussxwab_invariants (a b : ℝ) (pto peso : List ℝ)
    (hsum : peso.sum = 2) (hpto : ∀ x ∈ pto, -1 ≤ x ∧ x ≤ 1) (hab : a < b) :
    (gaussxwab a b pto peso).2.sum = b - a ∧
    ∀ y ∈ (gaussxwab a b pto peso).1, a ≤ y ∧ y ≤ b := by
  constructor
  · simp only [gaussxwab]
    rw [sum_map_mul, hsum]
    ring
  · intro y hy
    simp only [gaussxwab, List.mem_map] at hy
    obtain ⟨x, hx, rfl⟩ := hy
    obtain ⟨h1, h2⟩ := hpto x hx
    constructor <;> nlinarith

/-- Witness for C6 at the order-1 reference rule ([0], [2]) mapped onto [0, 1]. -/
theorem gaussxwab_invariants_witness :
    (gaussxwab 0 1 [0] [2]).2.sum = 1 - 0 ∧
    ∀ y ∈ (gaussxwab 0 1 [0] [2]).1, (0 : ℝ) ≤ y ∧ y ≤ 1 :=
  gaussxwab_invariants 0 1 [0] [2] (by simp) (by norm_num) (by norm_num)

/-- C1 counterexample: at approx = 0 and reference = −1 the code of line 193
records |0 − (−1)| / (−1) = −1, a negative value differing from the claimed
|approx − ref| / |ref| = 1; the denominator is signed, so the recorded error is
not non-negative for every reference value. -/
theorem recordedError_counterexample :
    recordedError 0 (-1) = -1 ∧ recordedError 0 (-1) < 0 ∧
    recordedError 0 (-1) ≠ |(0 : ℝ) - (-1)| / |(-1 : ℝ)| := by
  norm_num [recordedError]

/-- C1 amended: the recorded error is |approx − reference| / reference with the
signed reference in the denominator and no absolute-error fallback; whenever the
reference is positive (as in the shipped run, analytic ≈ 640.36) it coincides
with the claimed relative error |approx − reference| / |reference| and is
non-negative. -/
theorem recordedError_signed (approx reference : ℝ) (h : 0 < reference) :
    recordedError approx reference = |approx - reference| / reference ∧
    recordedError approx reference = |approx - reference| / |reference| ∧
    0 ≤ recordedError approx reference := by
  refine ⟨rfl, ?_, ?_⟩
  · rw [recordedError, abs_of_pos h]
  · exact div_nonneg (abs_nonneg _) h.le

/-- Witness for the amended C1 at approx = 0, reference = 1. -/
theorem recordedError_signed_witness :
    recordedError 0 1 = |(0 : ℝ) - 1| / 1 ∧
    recordedError 0 1 = |(0 : ℝ) - 1| / |(1 : ℝ)| ∧
    0 ≤ recordedError 0 1 :=
  recordedError_signed 0 1 (by norm_num)

/-- C5 counterexample: for the reversed bounds a = 3 ≥ b = 1 the mapper performs
no validation and returns the mapped rule ([2], [−2]); nothing is rejected. -/
theorem gaussxwab_counterexample :
    gaussxwab 3 1 [0] [2] = ([2], [-2]) := by
  norm_num [gaussxwab]

/-- C5 amended: `gaussxwab` performs no interval validation — for bounds with
b ≤ a it still returns the affinely mapped rule by the same formula, and when
the input weights have non-negative sum the mapped weights sum to a
non-positive value (a degenerate rule, not an error). -/
theorem gaussxwab_reversed (a b : ℝ) (pto peso : List ℝ)
    (hba : b ≤ a) (hw : 0 ≤ peso.sum) :
    gaussxwab a b pto peso =
      (pto.map (fun x => 0.5 * (b - a) * x + 0.5 * (b + a)),
       peso.map (fun w => 0.5 * (b - a) * w)) ∧
    (gaussxwab a b pto peso).2.sum ≤ 0 := by
  refine ⟨rfl, ?_⟩
  simp only [gaussxwab]
  rw [sum_map_mul]
  nlinarith

/-- Witness for the amended C5 at bounds (3, 1) and rule ([0], [2]). -/
theorem gaussxwab_reversed_witness :
    gaussxwab 3 1 [0] [2] =
      ([(0 : ℝ)].map (fun x => 0.5 * ((1 : ℝ) - 3) * x + 0.5 * ((1 : ℝ) + 3)),
       [(2 : ℝ)].map (fun w => 0.5 * ((1 : ℝ) - 3) * w)) ∧
    (gaussxwab 3 1 [0] [2]).2.sum ≤ 0 :=
  gaussxwab_reversed 3 1 [0] [2] (by norm_num) (by norm_num)

/-- Invariant of the search loop: started at order N with d = maxOrder − N orders
of budget left, the loop visits the consecutive orders N, N+1, …, K for some
K ≤ maxOrder, appends exactly one record per visited order, every visited order
before K has error not below the tolerance, and the loop either succeeds at K
(first passing order) or fails with K = maxOrder and final counter maxOrder + 1. -/
lemma searchLoop_spec (step : ℕ → ℝ × ℝ) (tol : ℝ) (maxOrder : ℕ) :
    ∀ d N acc, N + d = maxOrder →
    ∃ K, N ≤ K ∧ K ≤ maxOrder ∧
      (∀ m, N ≤ m → m < K → ¬ (step m).2 < tol) ∧
      (((step K).2 < tol ∧
          searchLoop step tol maxOrder N acc =
            (acc ++ (List.range' N (K + 1 - N)).map
              (fun m => (m, (step m).1, (step m).2)), K, true)) ∨
       (¬ (step K).2 < tol ∧ K = maxOrder ∧
          searchLoop step tol maxOrder N acc =
            (acc ++ (List.range' N (K + 1 - N)).map
              (fun m => (m, (step m).1, (step m).2)), maxOrder + 1, false))) := by
  intro d
  induction d with
  | zero =>
    intro N acc h
    have hNm : N = maxOrder := by omega
    subst hNm
    refine ⟨N, le_refl N, le_refl N, fun m hm hmN => absurd hmN (by omega), ?_⟩
    rw [searchLoop]
    by_cases hlt : (step N).2 < tol
    · left
      refine ⟨hlt, ?_⟩
      rw [if_pos hlt]
      simp [Nat.add_sub_cancel_left, List.range'_one]
    · right
      refine ⟨hlt, rfl, ?_⟩
      rw [if_neg hlt, if_pos (by omega : N < N + 1)]
      simp [Nat.add_sub_cancel_left, List.range'_one]
  | succ d ih =>
    intro N acc h
    by_cases hlt : (step N).2 < tol
    · refine ⟨N, le_refl N, by omega, fun m hm hmN => absurd hmN (by omega), ?_⟩
      left
      refine ⟨hlt, ?_⟩
      rw [searchLoop, if_pos hlt]
      simp [Nat.add_sub_cancel_left, List.range'_one]
    · obtain ⟨K, hNK, hKmax, hfirst, hres⟩ :=
        ih (N + 1) (acc ++ [(N, (step N).1, (step N).2)]) (by omega)
      have hrange : (N, (step N).1, (step N).2) ::
          (List.range' (N + 1) (K + 1 - (N + 1))).map
            (fun m => (m, (step m).1, (step m).2)) =
          (List.range' N (K + 1 - N)).map
            (fun m => (m, (step m).1, (step m).2)) := by
        have hn : K + 1 - N = (K + 1 - (N + 1)) + 1 := by omega
        rw [hn, List.range'_succ, List.map_cons]
      refine ⟨K, by omega, hKmax, ?_, ?_⟩
      · intro m hm hmK
        rcases eq_or_lt_of_le hm with hEq | hGt
        · exact hEq ▸ hlt
        · exact hfirst m (by omega) hmK
      · rw [searchLoop, if_neg hlt, if_neg (by omega : ¬ maxOrder < N + 1)]
        rcases hres with ⟨hK, heq⟩ | ⟨hK, hKm, heq⟩
        · left
          refine ⟨hK, ?_⟩
          rw [heq, List.append_assoc, List.singleton_append, hrange]
        · right
          refine ⟨hK, hKm, ?_⟩
          rw [heq, List.append_assoc, List.singleton_append, hrange]

/-- C2: the search of `main` with order cap 50 tries orders N = 1, 2, 3, … in
exactly that increasing sequence, appends exactly one record per trial order,
stops at the first order whose error is below the tolerance (success, with that
order as final counter), and otherwise stops once order 50 has been tried
(failure); in every case it terminates after at most 50 trials. -/
theorem searchLoop_tries_increasing_orders (step : ℕ → ℝ × ℝ) (tol : ℝ) :
    ∃ K, 1 ≤ K ∧ K ≤ 50 ∧
      (searchLoop step tol 50 1 []).1 =
        (List.range' 1 K).map (fun m => (m, (step m).1, (step m).2)) ∧
      (searchLoop step tol 50 1 []).1.length = K ∧
      (∀ m, 1 ≤ m → m < K → ¬ (step m).2 < tol) ∧
      ((searchLoop step tol 50 1 []).2.2 = true →
        (step K).2 < tol ∧ (searchLoop step tol 50 1 []).2.1 = K) ∧
      ((searchLoop step tol 50 1 []).2.2 = false →
        K = 50 ∧ ∀ m, 1 ≤ m → m ≤ 50 → ¬ (step m).2 < tol) := by
  obtain ⟨K, h1K, hK50, hfirst, hres⟩ :=
    searchLoop_spec step tol 50 49 1 [] (by omega)
  have hKsub : K + 1 - 1 = K := by omega
  rcases hres with ⟨hK, heq⟩ | ⟨hK, hKm, heq⟩
  · refine ⟨K, h1K, hK50, ?_, ?_, fun m hm hmK => hfirst m hm hmK, ?_, ?_⟩
    · rw [heq, hKsub, List.nil_append]
    · rw [heq, hKsub, List.nil_append, List.length_map, List.length_range']
    · intro _
      rw [heq]
      exact ⟨hK, rfl⟩
    · intro hfalse
      rw [heq] at hfalse
      simp at hfalse
  · refine ⟨K, h1K, hK50, ?_, ?_, fun m hm hmK => hfirst m hm hmK, ?_, ?_⟩
    · rw [heq, hKsub, List.nil_append]
    · rw [heq, hKsub, List.nil_append, List.length_map, List.length_range']
    · intro htrue
      rw [heq] at htrue
      simp at htrue
    · intro _
      refine ⟨hKm, fun m hm hm50 => ?_⟩
      rcases lt_or_eq_of_le hm50 with hlt | hEq
      · exact hfirst m hm (by omega)
      · rw [hEq, ← hKm]
        exact hK

/-- Helper: the degree-n Legendre polynomial has natural degree n and is nonzero
(stated as a pair to drive the two-step recurrence induction). -/
lemma legendre_natDegree_ne_zero (n : ℕ) :
    ((legendre n).natDegree = n ∧ legendre n ≠ 0) ∧
    ((legendre (n + 1)).natDegree = n + 1 ∧ legendre (n + 1) ≠ 0) := by
  induction n with
  | zero =>
    refine ⟨⟨?_, ?_⟩, ?_, ?_⟩ <;> simp [legendre, X_ne_zero]
  | succ n ih =>
    obtain ⟨⟨hd0, hne0⟩, hd1, hne1⟩ := ih
    refine ⟨⟨hd1, hne1⟩, ?_⟩
    show (legendre (n + 2)).natDegree = n + 2 ∧ legendre (n + 2) ≠ 0
    have hc3 : (2 * (n : ℝ) + 3) ≠ 0 := by positivity
    have hc1 : ((n : ℝ) + 1) ≠ 0 := by positivity
    have hcinv : (((n : ℝ) + 2)⁻¹) ≠ 0 := by positivity
    have hAne : C (2 * (n : ℝ) + 3) * X * legendre (n + 1) ≠ 0 :=
      mul_ne_zero (mul_ne_zero (C_ne_zero.mpr hc3) X_ne_zero) hne1
    have hAdeg : (C (2 * (n : ℝ) + 3) * X * legendre (n + 1)).natDegree = n + 2 := by
      rw [natDegree_mul (mul_ne_zero (C_ne_zero.mpr hc3) X_ne_zero) hne1,
        natDegree_mul (C_ne_zero.mpr hc3) X_ne_zero, natDegree_C, natDegree_X, hd1]
      omega
    have hBdeg : (C ((n : ℝ) + 1) * legendre n).natDegree = n := by
      rw [natDegree_C_mul hc1, hd0]
    have hlt : (C ((n : ℝ) + 1) * legendre n).natDegree <
        (C (2 * (n : ℝ) + 3) * X * legendre (n + 1)).natDegree := by
      rw [hAdeg, hBdeg]
      omega
    have hsubdeg : (C (2 * (n : ℝ) + 3) * X * legendre (n + 1)
        - C ((n : ℝ) + 1) * legendre n).natDegree = n + 2 := by
      rw [natDegree_sub_eq_left_of_natDegree_lt hlt, hAdeg]
    have hsubne : C (2 * (n : ℝ) + 3) * X * legendre (n + 1)
        - C ((n : ℝ) + 1) * legendre n ≠ 0 := by
      intro hzero
      rw [hzero, natDegree_zero] at hsubdeg
      omega
    constructor
    · rw [legendre, natDegree_C_mul hcinv, hsubdeg]
    · rw [legendre]
      exact mul_ne_zero (C_ne_zero.mpr hcinv) hsubne

/-- Helper: parity of the Legendre polynomials, in composition form —
P_n(−X) = (−1)^n · P_n(X) (stated as a pair for the two-step induction). -/
lemma legendre_comp_neg (n : ℕ) :
    (legendre n).comp (-X) = (-1 : Polynomial ℝ) ^ n * legendre n ∧
    (legendre (n + 1)).comp (-X) = (-1 : Polynomial ℝ) ^ (n + 1) * legendre (n + 1) := by
  induction n with
  | zero => constructor <;> simp [legendre]
  | succ n ih =>
    obtain ⟨h0, h1⟩ := ih
    refine ⟨h1, ?_⟩
    show (legendre (n + 2)).comp (-X) = (-1 : Polynomial ℝ) ^ (n + 2) * legendre (n + 2)
    rw [legendre]
    simp only [mul_comp, sub_comp, C_comp, X_comp]
    rw [h1, h0, pow_succ, pow_succ]
    ring

/-- Helper: parity of the derivative of the Legendre polynomials in composition
form, obtained by differentiating the parity identity. -/
lemma legendre_derivative_comp_neg (n : ℕ) :
    (derivative (legendre n)).comp (-X) =
      (-1 : Polynomial ℝ) ^ (n + 1) * derivative (legendre n) := by
  have h := congrArg derivative (legendre_comp_neg n).1
  rw [derivative_comp] at h
  have hconst : derivative ((-1 : Polynomial ℝ) ^ n) = 0 := by
    rw [show (-1 : Polynomial ℝ) = C (-1) by simp, ← C_pow, derivative_C]
  rw [derivative_mul, hconst, zero_mul, zero_add, derivative_neg, derivative_X,
    neg_one_mul] at h
  have h2 : (derivative (legendre n)).comp (-X) =
      -((-1 : Polynomial ℝ) ^ n * derivative (legendre n)) := neg_eq_iff_eq_neg.mp h
  rw [h2, pow_succ]
  ring

/-- Helper: evaluated parity P_n(−x) = (−1)^n · P_n(x). -/
lemma legendre_eval_neg (n : ℕ) (x : ℝ) :
    (legendre n).eval (-x) = (-1 : ℝ) ^ n * (legendre n).eval x := by
  have h := congrArg (eval x) (legendre_comp_neg n).1
  rw [eval_comp] at h
  simpa using h

/-- Helper: evaluated parity of the derivative. -/
lemma legendre_deriv_eval_neg (n : ℕ) (x : ℝ) :
    (derivative (legendre n)).eval (-x) =
      (-1 : ℝ) ^ (n + 1) * (derivative (legendre n)).eval x := by
  have h := congrArg (eval x) (legendre_derivative_comp_neg n)
  rw [eval_comp] at h
  simpa using h

/-- Helper: the roots of the Legendre polynomial are symmetric about 0. -/
lemma legendre_root_neg_iff (N : ℕ) (x : ℝ) :
    (legendre N).eval (-x) = 0 ↔ (legendre N).eval x = 0 := by
  rw [legendre_eval_neg]
  constructor
  · intro h
    rcases mul_eq_zero.mp h with h1 | h1
    · exact absurd h1 (pow_ne_zero _ (by norm_num))
    · exact h1
  · intro h
    rw [h, mul_zero]

/-- Helper: sorting a finite set of reals closed under negation produces a list
whose elementwise negation is its reversal. -/
lemma sort_map_neg_reverse (S : Finset ℝ) (hS : ∀ x ∈ S, -x ∈ S) :
    (S.sort (· ≤ ·)).map (fun x => -x) = (S.sort (· ≤ ·)).reverse := by
  have hnd : (S.sort (· ≤ ·)).Nodup := Finset.sort_nodup _ S
  have hrev : ((S.sort (· ≤ ·)).map (fun x => -x)).reverse = S.sort (· ≤ ·) := by
    have hnd1 : ((S.sort (· ≤ ·)).map (fun x => -x)).reverse.Nodup := by
      rw [List.nodup_reverse]
      exact hnd.map neg_injective
    have hmem : ∀ a : ℝ,
        a ∈ ((S.sort (· ≤ ·)).map (fun x => -x)).reverse ↔ a ∈ S.sort (· ≤ ·) := by
      intro a
      simp only [List.mem_reverse, List.mem_map, Finset.mem_sort]
      constructor
      · rintro ⟨x, hx, rfl⟩
        exact hS x hx
      · intro ha
        exact ⟨-a, hS a ha, neg_neg a⟩
    have hperm : List.Perm (((S.sort (· ≤ ·)).map (fun x => -x)).reverse)
        (S.sort (· ≤ ·)) :=
      (List.perm_ext_iff_of_nodup hnd1 hnd).mpr hmem
    have hsorted : (S.sort (· ≤ ·)).Pairwise (· ≤ ·) := Finset.sort_sorted _ S
    have h1 : ((S.sort (· ≤ ·)).map (fun x => -x)).Pairwise (fun a b : ℝ => b ≤ a) :=
      hsorted.map _ (fun a b hab => neg_le_neg hab)
    have hs1 : List.Sorted (· ≤ ·) (((S.sort (· ≤ ·)).map (fun x => -x)).reverse) :=
      List.pairwise_reverse.mpr h1
    exact List.eq_of_perm_of_sorted hperm hs1 (Finset.sort_sorted _ S)
  have hfinal := congrArg List.reverse hrev
  rwa [List.reverse_reverse] at hfinal

/-- Helper: a list equal in reverse to its elementwise negation is palindromic
up to sign, index by index. -/
lemma get_neg_palindrome (l : List ℝ) (h : l.map (fun x => -x) = l.reverse)
    (i : ℕ) (hi : i < l.length) (hj : l.length - 1 - i < l.length) :
    l[i] = -l[l.length - 1 - i] := by
  have hq := congrArg (fun lst : List ℝ => lst[i]?) h
  simp only [List.getElem?_map, List.getElem?_reverse hi] at hq
  rw [List.getElem?_eq_getElem hi, List.getElem?_eq_getElem hj] at hq
  simp only [Option.map_some'] at hq
  have hval : -l[i] = l[l.length - 1 - i] := Option.some.inj hq
  rw [← hval, neg_neg]

/-- Helper: the quadrature weight function of the spec is even in the node,
because the squared derivative of the Legendre polynomial is even. -/
lemma weight_fun_even (N : ℕ) (x : ℝ) :
    2 / ((1 - (-x) ^ 2) * ((derivative (legendre N)).eval (-x)) ^ 2) =
    2 / ((1 - x ^ 2) * ((derivative (legendre N)).eval x) ^ 2) := by
  rw [legendre_deriv_eval_neg]
  have h1 : ((-1 : ℝ) ^ (N + 1)) ^ 2 = 1 := by
    rw [← pow_mul, mul_comm, pow_mul, neg_one_sq, one_pow]
  rw [mul_pow, h1, one_mul]
  have h2 : (-x : ℝ) ^ 2 = x ^ 2 := by ring
  rw [h2]

/-- Helper: every Legendre polynomial evaluates to 1 at the endpoint 1
(paired for the two-step induction). -/
lemma legendre_eval_one (n : ℕ) :
    (legendre n).eval 1 = 1 ∧ (legendre (n + 1)).eval 1 = 1 := by
  induction n with
  | zero => constructor <;> simp [legendre]
  | succ n ih =>
    obtain ⟨h0, h1⟩ := ih
    refine ⟨h1, ?_⟩
    show (legendre (n + 2)).eval 1 = 1
    rw [legendre]
    simp only [eval_mul, eval_sub, eval_C, eval_X, h0, h1]
    have hne : ((n : ℝ) + 2) ≠ 0 := by positivity
    have hval : (2 * (n : ℝ) + 3) * 1 * 1 - ((n : ℝ) + 1) * 1 = (n : ℝ) + 2 := by ring
    rw [hval, inv_mul_cancel₀ hne]

/-- Helper: every Legendre polynomial has positive leading coefficient
(paired for the two-step induction). -/
lemma legendre_leadingCoeff_pos (n : ℕ) :
    0 < (legendre n).leadingCoeff ∧ 0 < (legendre (n + 1)).leadingCoeff := by
  induction n with
  | zero => constructor <;> simp [legendre]
  | succ n ih =>
    obtain ⟨h0, h1⟩ := ih
    refine ⟨h1, ?_⟩
    show 0 < (legendre (n + 2)).leadingCoeff
    obtain ⟨⟨hd0, hne0⟩, hd1, hne1⟩ := legendre_natDegree_ne_zero n
    have hc3 : (2 * (n : ℝ) + 3) ≠ 0 := by positivity
    have hc1 : ((n : ℝ) + 1) ≠ 0 := by positivity
    have hAne : C (2 * (n : ℝ) + 3) * X * legendre (n + 1) ≠ 0 :=
      mul_ne_zero (mul_ne_zero (C_ne_zero.mpr hc3) X_ne_zero) hne1
    have hBne : C ((n : ℝ) + 1) * legendre n ≠ 0 :=
      mul_ne_zero (C_ne_zero.mpr hc1) hne0
    have hAdeg : (C (2 * (n : ℝ) + 3) * X * legendre (n + 1)).natDegree = n + 2 := by
      rw [natDegree_mul (mul_ne_zero (C_ne_zero.mpr hc3) X_ne_zero) hne1,
        natDegree_mul (C_ne_zero.mpr hc3) X_ne_zero, natDegree_C, natDegree_X, hd1]
      omega
    have hBdeg : (C ((n : ℝ) + 1) * legendre n).natDegree = n := by
      rw [natDegree_C_mul hc1, hd0]
    have hdlt : (C ((n : ℝ) + 1) * legendre n).degree <
        (C (2 * (n : ℝ) + 3) * X * legendre (n + 1)).degree := by
      rw [degree_eq_natDegree hBne, degree_eq_natDegree hAne, hBdeg, hAdeg]
      exact_mod_cast (by omega : n < n + 2)
    have hlcsub : (C (2 * (n : ℝ) + 3) * X * legendre (n + 1)
        - C ((n : ℝ) + 1) * legendre n).leadingCoeff
        = (C (2 * (n : ℝ) + 3) * X * legendre (n + 1)).leadingCoeff :=
      leadingCoeff_sub_of_degree_lt hdlt
    have hlcA : (C (2 * (n : ℝ) + 3) * X * legendre (n + 1)).leadingCoeff
        = (2 * (n : ℝ) + 3) * (legendre (n + 1)).leadingCoeff := by
      rw [leadingCoeff_mul, leadingCoeff_mul, leadingCoeff_C, leadingCoeff_X, mul_one]
    rw [legendre, leadingCoeff_mul, leadingCoeff_C, hlcsub, hlcA]
    have hp1 : (0 : ℝ) < ((n : ℝ) + 2)⁻¹ := by positivity
    have hp2 : (0 : ℝ) < 2 * (n : ℝ) + 3 := by positivity
    exact mul_pos hp1 (mul_pos hp2 h1)

/-- Helper: a real polynomial with opposite signs at the two ends of an
interval has a root strictly inside it. -/
lemma poly_root_between (p : Polynomial ℝ) (a b : ℝ) (hab : a < b)
    (h : p.eval a * p.eval b < 0) : ∃ c, a < c ∧ c < b ∧ p.eval c = 0 := by
  rcases mul_neg_iff.mp h with ⟨ha, hb⟩ | ⟨ha, hb⟩
  · obtain ⟨c, hc, hc0⟩ := intermediate_value_Ioo' hab.le p.continuous.continuousOn
      (Set.mem_Ioo.mpr ⟨hb, ha⟩)
    exact ⟨c, hc.1, hc.2, hc0⟩
  · obtain ⟨c, hc, hc0⟩ := intermediate_value_Ioo hab.le p.continuous.continuousOn
      (Set.mem_Ioo.mpr ⟨ha, hb⟩)
    exact ⟨c, hc.1, hc.2, hc0⟩

/-- Helper: getD at an in-range index is get. -/
lemma getD_eq_get (l : List ℝ) (i : ℕ) (h : i < l.length) :
    l.getD i 0 = l.get ⟨i, h⟩ := by
  simp [List.getD_eq_getElem?_getD, List.getElem?_eq_getElem h]

/-- Helper: getD at an in-range index commutes with map. -/
lemma getD_map (l : List ℝ) (f : ℝ → ℝ) (i : ℕ) (h : i < l.length) :
    (l.map f).getD i 0 = f (l.getD i 0) := by
  rw [getD_eq_get (l.map f) i (by simpa using h), getD_eq_get l i h]
  simp

/-- Helper: getD version of the sign palindromy of a list whose elementwise
negation is its reversal. -/
lemma getD_neg_palindrome (l : List ℝ) (h : l.map (fun x => -x) = l.reverse)
    (i : ℕ) (hi : i < l.length) :
    l.getD i 0 = -l.getD (l.length - 1 - i) 0 := by
  have hj : l.length - 1 - i < l.length := by omega
  rw [getD_eq_get l i hi, getD_eq_get l _ hj]
  simpa using get_neg_palindrome l h i hi hj

/-- Helper: a real polynomial of degree m with positive leading coefficient
whose m listed increasing points are all roots has, at any point distinct from
every root, the sign given by the parity of the number of roots above the
point. -/
lemma eval_sign_of_roots (p : Polynomial ℝ) (hlc : 0 < p.leadingCoeff) (m : ℕ)
    (hdeg : p.natDegree = m) (y : ℕ → ℝ)
    (hmono : ∀ i j, i < j → j < m → y i < y j)
    (hroots : ∀ j, j < m → p.eval (y j) = 0) (t : ℝ)
    (ht : ∀ j, j < m → t ≠ y j) :
    0 < (-1 : ℝ) ^ (((Finset.range m).filter (fun j => t < y j)).card) * p.eval t := by
  have hp : p ≠ 0 := leadingCoeff_ne_zero.mp (ne_of_gt hlc)
  have hnodup : ((Finset.range m).val.map y).Nodup := by
    refine Multiset.Nodup.map_on ?_ (Finset.range m).nodup
    intro i hi j hj hij
    rw [Finset.mem_val, Finset.mem_range] at hi hj
    by_contra hne
    rcases Nat.lt_or_ge i j with h | h
    · exact absurd hij (ne_of_lt (hmono i j h hj))
    · have h2 : j < i := by omega
      exact absurd hij.symm (ne_of_lt (hmono j i h2 hi))
  have hle : (Finset.range m).val.map y ≤ p.roots := by
    rw [Multiset.le_iff_count]
    intro a
    by_cases ha : a ∈ (Finset.range m).val.map y
    · rw [Multiset.count_eq_one_of_mem hnodup ha]
      refine Multiset.one_le_count_iff_mem.mpr ?_
      obtain ⟨j, hj, rfl⟩ := Multiset.mem_map.mp ha
      rw [Finset.mem_val, Finset.mem_range] at hj
      exact (mem_roots hp).mpr (hroots j hj)
    · rw [Multiset.count_eq_zero.mpr ha]
      exact Nat.zero_le _
  have hcardy : Multiset.card ((Finset.range m).val.map y) = m := by
    simp
  have hroots_eq : p.roots = (Finset.range m).val.map y := by
    refine (Multiset.eq_of_le_of_card_le hle ?_).symm
    rw [hcardy]
    calc Multiset.card p.roots ≤ p.natDegree := p.card_roots'
      _ = m := hdeg
  have hcardroots : Multiset.card p.roots = p.natDegree := by
    rw [hroots_eq, hcardy, hdeg]
  have hfact := C_leadingCoeff_mul_prod_multiset_X_sub_C hcardroots
  have heval : p.eval t = p.leadingCoeff * ∏ j ∈ Finset.range m, (t - y j) := by
    conv_lhs => rw [← hfact]
    rw [eval_mul, eval_C, eval_multiset_prod, Multiset.map_map, hroots_eq,
      Multiset.map_map, Finset.prod_eq_multiset_prod]
    congr 1
    refine congrArg Multiset.prod (Multiset.map_congr rfl ?_)
    intro j hj
    simp
  have hsplit : ∏ j ∈ Finset.range m, (t - y j) =
      (∏ j ∈ (Finset.range m).filter (fun j => t < y j), (t - y j)) *
      ∏ j ∈ (Finset.range m).filter (fun j => ¬ t < y j), (t - y j) :=
    (Finset.prod_filter_mul_prod_filter_not _ _ _).symm
  have hneg : ∏ j ∈ (Finset.range m).filter (fun j => t < y j), (t - y j) =
      (-1 : ℝ) ^ (((Finset.range m).filter (fun j => t < y j)).card) *
      ∏ j ∈ (Finset.range m).filter (fun j => t < y j), (y j - t) := by
    rw [← Finset.prod_const, ← Finset.prod_mul_distrib]
    apply Finset.prod_congr rfl
    intro j hj
    ring
  have hpos1 : 0 < ∏ j ∈ (Finset.range m).filter (fun j => t < y j), (y j - t) := by
    apply Finset.prod_pos
    intro j hj
    rw [Finset.mem_filter] at hj
    linarith [hj.2]
  have hpos2 : 0 < ∏ j ∈ (Finset.range m).filter (fun j => ¬ t < y j), (t - y j) := by
    apply Finset.prod_pos
    intro j hj
    rw [Finset.mem_filter, Finset.mem_range] at hj
    have h1 : y j ≤ t := not_lt.mp hj.2
    have h2 : t ≠ y j := ht j hj.1
    have h3 : y j < t := lt_of_le_of_ne h1 (fun hc => h2 hc.symm)
    linarith
  have hsq : ((-1 : ℝ) ^ (((Finset.range m).filter (fun j => t < y j)).card)) *
      ((-1 : ℝ) ^ (((Finset.range m).filter (fun j => t < y j)).card)) = 1 := by
    rw [← pow_add]
    exact Even.neg_one_pow ⟨((Finset.range m).filter (fun j => t < y j)).card, by ring⟩
  rw [heval, hsplit, hneg]
  calc (0 : ℝ) < p.leadingCoeff *
        ((∏ j ∈ (Finset.range m).filter (fun j => t < y j), (y j - t)) *
         ∏ j ∈ (Finset.range m).filter (fun j => ¬ t < y j), (t - y j)) :=
        mul_pos hlc (mul_pos hpos1 hpos2)
    _ = (-1 : ℝ) ^ (((Finset.range m).filter (fun j => t < y j)).card) *
        (p.leadingCoeff *
          ((-1 : ℝ) ^ (((Finset.range m).filter (fun j => t < y j)).card) *
            (∏ j ∈ (Finset.range m).filter (fun j => t < y j), (y j - t)) *
           ∏ j ∈ (Finset.range m).filter (fun j => ¬ t < y j), (t - y j))) := by
        calc p.leadingCoeff *
            ((∏ j ∈ (Finset.range m).filter (fun j => t < y j), (y j - t)) *
             ∏ j ∈ (Finset.range m).filter (fun j => ¬ t < y j), (t - y j))
            = (((-1 : ℝ) ^ (((Finset.range m).filter (fun j => t < y j)).card)) *
               ((-1 : ℝ) ^ (((Finset.range m).filter (fun j => t < y j)).card))) *
              (p.leadingCoeff *
                ((∏ j ∈ (Finset.range m).filter (fun j => t < y j), (y j - t)) *
                 ∏ j ∈ (Finset.range m).filter (fun j => ¬ t < y j), (t - y j))) := by
              rw [hsq, one_mul]
          _ = _ := by ring

/-- Helper: the interlacing induction — the Legendre polynomial of degree n+1
has n+1 increasing roots inside (−1, 1), at which the degree-n polynomial
alternates in sign. -/
lemma legendre_alternating (n : ℕ) :
    ∃ y : ℕ → ℝ,
      (∀ i j, i < j → j < n + 1 → y i < y j) ∧
      (∀ j, j < n + 1 → -1 < y j ∧ y j < 1) ∧
      (∀ j, j < n + 1 → (legendre (n + 1)).eval (y j) = 0) ∧
      (∀ j, j < n + 1 → 0 < (-1 : ℝ) ^ (n - j) * (legendre n).eval (y j)) := by
  induction n with
  | zero =>
    refine ⟨fun _ => 0, fun i j hij hj => by omega, ?_, ?_, ?_⟩
    · intro j hj
      norm_num
    · intro j hj
      simp [legendre]
    · intro j hj
      simp [legendre]
  | succ n ih =>
    obtain ⟨y, hmono, hbound, hroot, hsign⟩ := ih
    have hdeg1 : (legendre (n + 1)).natDegree = n + 1 := (legendre_natDegree_ne_zero n).2.1
    have hlc1 : 0 < (legendre (n + 1)).leadingCoeff := (legendre_leadingCoeff_pos n).2
    have heval1 : (legendre (n + 2)).eval 1 = 1 := (legendre_eval_one (n + 1)).2
    have hevalm1 : (legendre (n + 2)).eval (-1) = (-1 : ℝ) ^ (n + 2) := by
      have h := legendre_eval_neg (n + 2) 1
      rw [heval1] at h
      simpa using h
    have hP2 : ∀ j, j < n + 1 →
        0 < (-1 : ℝ) ^ (n + 1 - j) * (legendre (n + 2)).eval (y j) := by
      intro j hj
      have hy0 : (legendre (n + 1)).eval (y j) = 0 := hroot j hj
      have heval2 : (legendre (n + 2)).eval (y j)
          = -((((n : ℝ) + 2)⁻¹ * ((n : ℝ) + 1)) * (legendre n).eval (y j)) := by
        rw [legendre]
        simp only [eval_mul, eval_sub, eval_C, eval_X, hy0]
        ring
      have hc : (0 : ℝ) < ((n : ℝ) + 2)⁻¹ * ((n : ℝ) + 1) := by positivity
      have h2 : 0 < (((n : ℝ) + 2)⁻¹ * ((n : ℝ) + 1)) *
          ((-1 : ℝ) ^ (n - j) * (legendre n).eval (y j)) := mul_pos hc (hsign j hj)
      have hexp : n + 1 - j = (n - j) + 1 := by omega
      rw [heval2, hexp, pow_succ]
      nlinarith [h2]
    have hex : ∀ j, ∃ z : ℝ,
        j < n + 2 →
          ((if j = 0 then (-1 : ℝ) else y (j - 1)) < z ∧
           z < (if j = n + 1 then (1 : ℝ) else y j) ∧
           (legendre (n + 2)).eval z = 0) := by
      intro j
      by_cases hj : j < n + 2
      · by_cases hj0 : j = 0
        · subst hj0
          have hb0 := hbound 0 (by omega)
          have hkey := hP2 0 (by omega)
          rw [Nat.sub_zero] at hkey
          have hprod : (legendre (n + 2)).eval (-1) * (legendre (n + 2)).eval (y 0) < 0 := by
            rw [hevalm1]
            have hpow : (-1 : ℝ) ^ (n + 2) = -((-1 : ℝ) ^ (n + 1)) := by
              rw [pow_succ]
              ring
            rw [hpow]
            nlinarith [hkey]
          obtain ⟨c, h1, h2, h3⟩ := poly_root_between _ _ _ hb0.1 hprod
          refine ⟨c, fun _ => ?_⟩
          rw [if_pos rfl, if_neg (by omega : ¬ (0 : ℕ) = n + 1)]
          exact ⟨h1, h2, h3⟩
        · by_cases hjn : j = n + 1
          · subst hjn
            have hbn := hbound n (by omega)
            have hkey := hP2 n (by omega)
            have hone : n + 1 - n = 1 := by omega
            rw [hone, pow_one] at hkey
            have hprod : (legendre (n + 2)).eval (y n) * (legendre (n + 2)).eval 1 < 0 := by
              rw [heval1, mul_one]
              linarith
            obtain ⟨c, h1, h2, h3⟩ := poly_root_between _ _ _ hbn.2 hprod
            refine ⟨c, fun _ => ?_⟩
            rw [if_neg (by omega : ¬ n + 1 = 0), if_pos rfl]
            have hsub : n + 1 - 1 = n := by omega
            rw [hsub]
            exact ⟨h1, h2, h3⟩
          · have hj1 : 1 ≤ j := by omega
            have hjn1 : j ≤ n := by omega
            have hab : y (j - 1) < y j := hmono (j - 1) j (by omega) (by omega)
            have hkey1 := hP2 (j - 1) (by omega)
            have hkey2 := hP2 j (by omega)
            have hprod : (legendre (n + 2)).eval (y (j - 1)) *
                (legendre (n + 2)).eval (y j) < 0 := by
              rcases Nat.even_or_odd (n + 1 - j) with he | ho
              · have hodd : Odd (n + 1 - (j - 1)) := by
                  have harith : n + 1 - (j - 1) = (n + 1 - j) + 1 := by omega
                  rw [harith]
                  exact Even.add_one he
                rw [he.neg_one_pow, one_mul] at hkey2
                rw [hodd.neg_one_pow] at hkey1
                have hneg1 : (legendre (n + 2)).eval (y (j - 1)) < 0 := by linarith
                exact mul_neg_of_neg_of_pos hneg1 hkey2
              · have heven : Even (n + 1 - (j - 1)) := by
                  have harith : n + 1 - (j - 1) = (n + 1 - j) + 1 := by omega
                  rw [harith]
                  exact ho.add_one
                rw [ho.neg_one_pow] at hkey2
                rw [heven.neg_one_pow, one_mul] at hkey1
                have hneg2 : (legendre (n + 2)).eval (y j) < 0 := by linarith
                exact mul_neg_of_pos_of_neg hkey1 hneg2
            obtain ⟨c, h1, h2, h3⟩ := poly_root_between _ _ _ hab hprod
            refine ⟨c, fun _ => ?_⟩
            rw [if_neg hj0, if_neg hjn]
            exact ⟨h1, h2, h3⟩
      · exact ⟨0, fun h => absurd h hj⟩
    choose z hz using hex
    have hzlow : ∀ j, j < n + 2 → (if j = 0 then (-1 : ℝ) else y (j - 1)) < z j :=
      fun j hj => (hz j hj).1
    have hzhigh : ∀ j, j < n + 2 → z j < (if j = n + 1 then (1 : ℝ) else y j) :=
      fun j hj => (hz j hj).2.1
    have hzroot : ∀ j, j < n + 2 → (legendre (n + 2)).eval (z j) = 0 :=
      fun j hj => (hz j hj).2.2
    have hzy : ∀ j, j < n + 1 → z j < y j := by
      intro j hj
      have h := hzhigh j (by omega)
      rwa [if_neg (by omega : ¬ j = n + 1)] at h
    have hyz : ∀ j, 1 ≤ j → j < n + 2 → y (j - 1) < z j := by
      intro j h1 hj
      have h := hzlow j hj
      rwa [if_neg (by omega : ¬ j = 0)] at h
    have hyy : ∀ i j, i ≤ j → j < n + 1 → y i ≤ y j := by
      intro i j hij hj
      rcases Nat.lt_or_ge i j with h | h
      · exact le_of_lt (hmono i j h hj)
      · have : i = j := by omega
        rw [this]
    have hzlow2 : ∀ j, j < n + 2 → -1 < z j := by
      intro j hj
      have h := hzlow j hj
      by_cases h0 : j = 0
      · rwa [if_pos h0] at h
      · rw [if_neg h0] at h
        have hb := (hbound (j - 1) (by omega)).1
        linarith
    have hzhigh2 : ∀ j, j < n + 2 → z j < 1 := by
      intro j hj
      have h := hzhigh j hj
      by_cases hn : j = n + 1
      · rwa [if_pos hn] at h
      · rw [if_neg hn] at h
        have hb := (hbound j (by omega)).2
        linarith
    have hzmono : ∀ i j, i < j → j < n + 2 → z i < z j := by
      intro i j hij hj
      have h1 : z i < y i := hzy i (by omega)
      have h2 : y (j - 1) < z j := hyz j (by omega) hj
      have h3 : y i ≤ y (j - 1) := hyy i (j - 1) (by omega) (by omega)
      linarith
    have hfilter : ∀ j, j < n + 2 →
        ((Finset.range (n + 1)).filter (fun i => z j < y i)).card = n + 1 - j := by
      intro j hj
      have hset : ((Finset.range (n + 1)).filter (fun i => z j < y i)) =
          Finset.Ico j (n + 1) := by
        ext i
        simp only [Finset.mem_filter, Finset.mem_range, Finset.mem_Ico]
        constructor
        · rintro ⟨hi, hzi⟩
          refine ⟨?_, hi⟩
          by_contra hcon
          push_neg at hcon
          have hj1 : 1 ≤ j := by omega
          have h2 : y (j - 1) < z j := hyz j hj1 hj
          have h3 : y i ≤ y (j - 1) := hyy i (j - 1) (by omega) (by omega)
          linarith
        · rintro ⟨hji, hi⟩
          refine ⟨hi, ?_⟩
          have h1 : z j < y j := hzy j (by omega)
          have h2 : y j ≤ y i := hyy j i hji hi
          linarith
      rw [hset, Nat.card_Ico]
    have hzne : ∀ j, j < n + 2 → ∀ i, i < n + 1 → z j ≠ y i := by
      intro j hj i hi
      rcases Nat.lt_or_ge i j with h | h
      · have h2 : y (j - 1) < z j := hyz j (by omega) hj
        have h3 : y i ≤ y (j - 1) := hyy i (j - 1) (by omega) (by omega)
        exact ne_of_gt (by linarith)
      · have h1 : z j < y j := hzy j (by omega)
        have h2 : y j ≤ y i := hyy j i h hi
        exact ne_of_lt (by linarith)
    have hzsign : ∀ j, j < n + 2 →
        0 < (-1 : ℝ) ^ (n + 1 - j) * (legendre (n + 1)).eval (z j) := by
      intro j hj
      have h := eval_sign_of_roots (legendre (n + 1)) hlc1 (n + 1) hdeg1 y
        hmono hroot (z j) (hzne j hj)
      rwa [hfilter j hj] at h
    exact ⟨z, hzmono, fun j hj => ⟨hzlow2 j hj, hzhigh2 j hj⟩, hzroot, hzsign⟩

/-- Helper: the degree-N Legendre polynomial has exactly N distinct real
roots, produced by the interlacing induction. -/
lemma legendre_card_roots (N : ℕ) : (legendre N).roots.toFinset.card = N := by
  cases N with
  | zero =>
    rw [show legendre 0 = 1 from rfl, roots_one]
    simp
  | succ n =>
    obtain ⟨y, hmono, hbound, hroot, hsign⟩ := legendre_alternating n
    have hne : legendre (n + 1) ≠ 0 := (legendre_natDegree_ne_zero n).2.2
    have hdeg : (legendre (n + 1)).natDegree = n + 1 := (legendre_natDegree_ne_zero n).2.1
    have hsub : Finset.image y (Finset.range (n + 1)) ⊆
        (legendre (n + 1)).roots.toFinset := by
      intro x hx
      obtain ⟨j, hj, rfl⟩ := Finset.mem_image.mp hx
      rw [Finset.mem_range] at hj
      rw [Multiset.mem_toFinset, mem_roots hne]
      exact hroot j hj
    have hinj : Set.InjOn y (Finset.range (n + 1)) := by
      intro i hi j hj hij
      simp only [Finset.coe_range, Set.mem_Iio] at hi hj
      by_contra hne2
      rcases Nat.lt_or_ge i j with h | h
      · exact absurd hij (ne_of_lt (hmono i j h hj))
      · have h2 : j < i := by omega
        exact absurd hij.symm (ne_of_lt (hmono j i h2 hi))
    have h1 : n + 1 ≤ (legendre (n + 1)).roots.toFinset.card := by
      calc n + 1 = (Finset.range (n + 1)).card := (Finset.card_range _).symm
        _ = (Finset.image y (Finset.range (n + 1))).card :=
            (Finset.card_image_of_injOn hinj).symm
        _ ≤ (legendre (n + 1)).roots.toFinset.card := Finset.card_le_card hsub
    have h2 : (legendre (n + 1)).roots.toFinset.card ≤ n + 1 := by
      calc (legendre (n + 1)).roots.toFinset.card
          ≤ Multiset.card (legendre (n + 1)).roots := Multiset.toFinset_card_le _
        _ ≤ (legendre (n + 1)).natDegree := card_roots' _
        _ = n + 1 := hdeg
    omega

/-- Helper: the generator returns exactly N nodes and N weights. -/
lemma gaussxw_length (N : ℕ) :
    (gaussxw N).1.length = N ∧ (gaussxw N).2.length = N := by
  constructor
  · show ((legendre N).roots.toFinset.sort (· ≤ ·)).length = N
    rw [Finset.length_sort]
    exact legendre_card_roots N
  · show (((legendre N).roots.toFinset.sort (· ≤ ·)).map _).length = N
    rw [List.length_map, Finset.length_sort]
    exact legendre_card_roots N

/-- C7: for every positive order N, the generator returns exactly N nodes and
N weights; the nodes are exactly the roots of the degree-N Legendre
polynomial, in strictly increasing order, and nodes and weights are
palindromic: node i is the negation of node (N − 1 − i) and weight i equals
weight (N − 1 − i) for every index i < N. -/
theorem gaussxw_nodes_roots_sorted_palindromic (N : ℕ) (_hN : 0 < N) :
    (∀ x : ℝ, x ∈ (gaussxw N).1 ↔ (legendre N).eval x = 0) ∧
    List.Sorted (· < ·) (gaussxw N).1 ∧
    (gaussxw N).1.length = N ∧
    (gaussxw N).2.length = N ∧
    (∀ i, i < N → (gaussxw N).1.getD i 0 = -(gaussxw N).1.getD (N - 1 - i) 0) ∧
    (∀ i, i < N → (gaussxw N).2.getD i 0 = (gaussxw N).2.getD (N - 1 - i) 0) := by
  have hne : legendre N ≠ 0 := (legendre_natDegree_ne_zero N).1.2
  have hSneg : ∀ x ∈ (legendre N).roots.toFinset, -x ∈ (legendre N).roots.toFinset := by
    intro x hx
    rw [Multiset.mem_toFinset, mem_roots hne] at hx ⊢
    exact (legendre_root_neg_iff N x).mpr hx
  have hmap := sort_map_neg_reverse (legendre N).roots.toFinset hSneg
  have hlen1 : (gaussxw N).1.length = N := (gaussxw_length N).1
  have hlen2 : (gaussxw N).2.length = N := (gaussxw_length N).2
  have hpal : ∀ i, i < N →
      (gaussxw N).1.getD i 0 = -(gaussxw N).1.getD (N - 1 - i) 0 := by
    intro i hi
    have hi1 : i < (gaussxw N).1.length := by omega
    have h := getD_neg_palindrome ((gaussxw N).1) hmap i hi1
    rwa [hlen1] at h
  refine ⟨?_, ?_, hlen1, hlen2, hpal, ?_⟩
  · intro x
    simp only [gaussxw, Finset.mem_sort, Multiset.mem_toFinset, mem_roots hne]
    exact Iff.rfl
  · exact Finset.sort_sorted_lt _
  · intro i hi
    have hi1 : i < (gaussxw N).1.length := by omega
    have hj1 : N - 1 - i < (gaussxw N).1.length := by omega
    have e1 : (gaussxw N).2.getD i 0 =
        (fun x => 2 / ((1 - x ^ 2) * ((derivative (legendre N)).eval x) ^ 2))
          ((gaussxw N).1.getD i 0) :=
      getD_map ((gaussxw N).1) _ i hi1
    have e2 : (gaussxw N).2.getD (N - 1 - i) 0 =
        (fun x => 2 / ((1 - x ^ 2) * ((derivative (legendre N)).eval x) ^ 2))
          ((gaussxw N).1.getD (N - 1 - i) 0) :=
      getD_map ((gaussxw N).1) _ (N - 1 - i) hj1
    rw [e1, e2, hpal i hi]
    exact weight_fun_even N _

/-- Witness for C7 at N = 1. -/
theorem gaussxw_nodes_roots_sorted_palindromic_witness :
    (∀ x : ℝ, x ∈ (gaussxw 1).1 ↔ (legendre 1).eval x = 0) ∧
    List.Sorted (· < ·) (gaussxw 1).1 ∧
    (gaussxw 1).1.length = 1 ∧
    (gaussxw 1).2.length = 1 ∧
    (∀ i, i < 1 → (gaussxw 1).1.getD i 0 = -(gaussxw 1).1.getD (1 - 1 - i) 0) ∧
    (∀ i, i < 1 → (gaussxw 1).2.getD i 0 = (gaussxw 1).2.getD (1 - 1 - i) 0) :=
  gaussxw_nodes_roots_sorted_palindromic 1 (by norm_num)

/-- C8: for order N = 1 the generator yields exactly one node, 0, with the
single weight 2. -/
theorem gaussxw_one_node_zero_weight_two : gaussxw 1 = ([0], [2]) := by
  have h1 : legendre 1 = X := rfl
  simp only [gaussxw, h1, roots_X, Multiset.toFinset_singleton, Finset.sort_singleton,
    List.map_cons, List.map_nil, derivative_X]
  norm_num

end Cuadrature
